import Mathlib

/-!
Verification development for the 3D CT-scan classification training script
(src/train.py).  The script's preprocessing pipeline, dataset construction,
training-loop orchestration and inference reporting are embedded shallowly:

* numpy arrays become a shape together with the flat list of their entries;
  float arithmetic is modelled with exact rationals;
* numpy in-place masked assignment is made explicit by returning the final
  contents of the mutated argument next to the function's return value;
* the external interpolation routines of scipy.ndimage (rotate, zoom) are
  embedded with their documented shape contracts (reshape=False preserves the
  shape; zoom's output dimension is round(dim * factor)) while the voxel
  values they produce are taken as a parameter, since their numerics are
  library code outside this repository;
* the global random source consumed by random.choice is threaded as an
  explicit state.
-/

namespace TrainPy

/-- A 3D volume: a shape (width, height, depth) together with the flat list of
its voxel intensities.  Mirrors a 3D numpy float array; shape component 1 is
axis 0 (width), component 2.1 is axis 1 (height), component 2.2 is axis 2
(depth, the last axis). -/
structure Volume where
  shape : Nat × Nat × Nat
  data : List ℚ
deriving Repr, DecidableEq

/-- Elementwise clip to the Hounsfield window: values below -1000 become
-1000, values above 400 become 400.  This is the combined effect of the two
masked assignments in normalize (train.py lines 70-71). -/
def clipHU (x : ℚ) : ℚ :=
  if x < -1000 then -1000 else if 400 < x then 400 else x

/-- Embedding of normalize (train.py lines 66-74) with min = -1000 and
max = 400.  The two masked assignments `volume[volume < min] = min` and
`volume[volume > max] = max` mutate the caller's array in place; the
subsequent `(volume - min) / (max - min)` and the float32 cast allocate new
arrays.  The pair returned is (value returned to the caller, final contents
of the caller's argument array).  The float32 rounding of line 73 is not
modelled: arithmetic is exact. -/
def normalize (volume : List ℚ) : List ℚ × List ℚ :=
  let volume1 := volume.map fun x => if x < -1000 then -1000 else x
  let volume2 := volume1.map fun x => if 400 < x then 400 else x
  let result := volume2.map fun x => (x - (-1000)) / (400 - (-1000))
  (result, volume2)

theorem clipHU_mem (x : ℚ) : -1000 ≤ clipHU x ∧ clipHU x ≤ 400 := by
  unfold clipHU
  split_ifs with h1 h2 <;> constructor <;> linarith

theorem normalize_snd_eq_map (v : List ℚ) :
    (normalize v).2 = v.map clipHU := by
  simp only [normalize, List.map_map]
  apply List.map_congr_left
  intro x _
  simp only [Function.comp_apply, clipHU]
  split_ifs with h1 h2 h3 <;> first | rfl | linarith

theorem normalize_fst_eq_map (v : List ℚ) :
    (normalize v).1 = v.map (fun x => (clipHU x + 1000) / 1400) := by
  simp only [normalize, List.map_map]
  apply List.map_congr_left
  intro x _
  simp only [Function.comp_apply, clipHU]
  split_ifs with h1 h2 h3 <;> first | (exfalso; linarith) | norm_num

/-- C2: every element of the array returned by normalize equals
(clip(x, -1000, 400) + 1000) / 1400 where x is the corresponding input
element, and every returned element lies in [0, 1]. -/
theorem normalize_formula_and_bounds (v : List ℚ) (i : Nat) (h : i < v.length) :
    (normalize v).1.length = v.length ∧
    (normalize v).1.getD i 0 = (clipHU (v.getD i 0) + 1000) / 1400 ∧
    0 ≤ (normalize v).1.getD i 0 ∧ (normalize v).1.getD i 0 ≤ 1 := by
  have hlen : (normalize v).1.length = v.length := by
    rw [normalize_fst_eq_map]; simp
  refine ⟨hlen, ?_, ?_, ?_⟩
  · rw [normalize_fst_eq_map]
    rw [List.getD_eq_getElem _ _ (by simpa using h), List.getD_eq_getElem _ _ h]
    simp
  · rw [normalize_fst_eq_map, List.getD_eq_getElem _ _ (by simpa using h)]
    simp only [List.getElem_map]
    have := clipHU_mem (v[i])
    apply div_nonneg <;> linarith
  · rw [normalize_fst_eq_map, List.getD_eq_getElem _ _ (by simpa using h)]
    simp only [List.getElem_map]
    have := clipHU_mem (v[i])
    rw [div_le_one (by norm_num)]
    linarith

theorem normalize_formula_and_bounds_witness :
    (normalize [-2000, 500, 100]).1.length = 3 ∧
    (normalize [-2000, 500, 100]).1.getD 0 0 =
      (clipHU ((([-2000, 500, 100] : List ℚ)).getD 0 0) + 1000) / 1400 ∧
    0 ≤ (normalize [-2000, 500, 100]).1.getD 0 0 ∧
    (normalize [-2000, 500, 100]).1.getD 0 0 ≤ 1 :=
  normalize_formula_and_bounds [-2000, 500, 100] 0 (by decide)

/-- C9: normalize mutates its argument in place: after the call the caller's
array holds the clipped values (elements below -1000 overwritten with -1000,
elements above 400 overwritten with 400, in-range elements untouched), and on
an out-of-range input the caller's array is not left unchanged. -/
theorem normalize_mutates_argument (v : List ℚ) (i : Nat) :
    (normalize v).2 = v.map clipHU ∧
    (v.getD i 0 < -1000 → (normalize v).2.getD i 0 = -1000) ∧
    (400 < v.getD i 0 → (normalize v).2.getD i 0 = 400) ∧
    (-1000 ≤ v.getD i 0 → v.getD i 0 ≤ 400 →
      (normalize v).2.getD i 0 = v.getD i 0) ∧
    (normalize [-2000]).2 ≠ [-2000] := by
  have hmap := normalize_snd_eq_map v
  have hget : (normalize v).2.getD i 0 = clipHU (v.getD i 0) := by
    rw [hmap]
    rcases Nat.lt_or_ge i v.length with h | h
    · rw [List.getD_eq_getElem _ _ (by simpa using h), List.getD_eq_getElem _ _ h]
      simp
    · rw [List.getD_eq_default _ _ (by simpa using h), List.getD_eq_default _ _ h]
      norm_num [clipHU]
  refine ⟨hmap, ?_, ?_, ?_, ?_⟩
  · intro hlt
    rw [hget, clipHU, if_pos hlt]
  · intro hgt
    rw [hget, clipHU, if_neg (by linarith), if_pos hgt]
  · intro hge hle
    rw [hget, clipHU, if_neg (by linarith), if_neg (by linarith)]
  · decide

theorem normalize_mutates_argument_witness :
    (normalize [-2000, 500, 7]).2 = ([-2000, 500, 7] : List ℚ).map clipHU ∧
    (normalize [-2000, 500, 7]).2.getD 0 0 = -1000 ∧
    (normalize [-2000, 500, 7]).2.getD 1 0 = 400 ∧
    (normalize [-2000, 500, 7]).2.getD 2 0 = ([-2000, 500, 7] : List ℚ).getD 2 0 ∧
    (normalize [-2000]).2 ≠ [-2000] := by
  have h0 := normalize_mutates_argument [-2000, 500, 7] 0
  have h1 := normalize_mutates_argument [-2000, 500, 7] 1
  have h2 := normalize_mutates_argument [-2000, 500, 7] 2
  exact ⟨h0.1, h0.2.1 (by norm_num), h1.2.2.1 (by norm_num),
    h2.2.2.2.1 (by norm_num) (by norm_num), h0.2.2.2.2⟩

/-- Model of scipy.ndimage.rotate as called with reshape=False (the only
form this script uses): the output keeps the input's shape; the interpolated
voxel values are produced by library numerics external to this repository and
are therefore a parameter interp.  The rotation acts in the first two axes
(scipy's default axes). -/
def ndimage_rotate (interp : Volume → ℤ → List ℚ) (img : Volume) (angle : ℤ) :
    Volume :=
  { shape := img.shape, data := interp img angle }

/-- Output size of one axis under scipy.ndimage.zoom, per its documented
contract round(dim * zoom_factor).  Every use in this file applies it to a
product that is an exact integer, so rounding-tie behaviour is never
exercised. -/
def zoom_dim (n : Nat) (z : ℚ) : Nat := (round ((n : ℚ) * z)).toNat

/-- Model of scipy.ndimage.zoom: the per-axis output sizes follow the
documented round(dim * factor) contract; the interpolated voxel values
(order is the spline order, 1 = linear) are external library numerics, a
parameter. -/
def ndimage_zoom (interp : Volume → ℚ × ℚ × ℚ → Nat → List ℚ)
    (img : Volume) (factors : ℚ × ℚ × ℚ) (order : Nat) : Volume :=
  { shape := (zoom_dim img.shape.1 factors.1, zoom_dim img.shape.2.1 factors.2.1,
      zoom_dim img.shape.2.2 factors.2.2),
    data := interp img factors order }

/-- Embedding of resize_volume (train.py lines 77-98): compute per-axis
factors 1 / (current / desired) from the input's shape (shape[-1] of a 3D
array is its third component), rotate by 90 degrees with reshape=False, then
zoom with those factors at spline order 1. -/
def resize_volume (rotInterp : Volume → ℤ → List ℚ)
    (zoomInterp : Volume → ℚ × ℚ × ℚ → Nat → List ℚ) (img : Volume) : Volume :=
  let desired_depth : Nat := 64
  let desired_width : Nat := 128
  let desired_height : Nat := 128
  let current_depth := img.shape.2.2
  let current_width := img.shape.1
  let current_height := img.shape.2.1
  let depth : ℚ := (current_depth : ℚ) / (desired_depth : ℚ)
  let width : ℚ := (current_width : ℚ) / (desired_width : ℚ)
  let height : ℚ := (current_height : ℚ) / (desired_height : ℚ)
  let depth_factor := 1 / depth
  let width_factor := 1 / width
  let height_factor := 1 / height
  let rotated := ndimage_rotate rotInterp img 90
  ndimage_zoom zoomInterp rotated (width_factor, height_factor, depth_factor) 1

theorem zoom_dim_self (t : Nat) (n : Nat) (hn : 0 < n) :
    zoom_dim n ((t : ℚ) / (n : ℚ)) = t := by
  have hne : (n : ℚ) ≠ 0 := Nat.cast_ne_zero.mpr hn.ne'
  have hmul : (n : ℚ) * ((t : ℚ) / (n : ℚ)) = ((t : ℤ) : ℚ) := by
    push_cast
    field_simp
  rw [zoom_dim, hmul, round_intCast]
  simp

/-- C1: for every volume with positive dimensions, resize_volume returns a
volume of shape exactly (128, 128, 64); it rotates by 90 degrees in the
first two axes without reshaping and then zooms with order-1 interpolation
by the per-axis factor target_size / current_size. -/
theorem resize_volume_shape (rotI : Volume → ℤ → List ℚ)
    (zoomI : Volume → ℚ × ℚ × ℚ → Nat → List ℚ) (img : Volume)
    (hw : 0 < img.shape.1) (hh : 0 < img.shape.2.1) (hd : 0 < img.shape.2.2) :
    (resize_volume rotI zoomI img).shape = (128, 128, 64) ∧
    resize_volume rotI zoomI img =
      ndimage_zoom zoomI (ndimage_rotate rotI img 90)
        (128 / (img.shape.1 : ℚ), 128 / (img.shape.2.1 : ℚ),
          64 / (img.shape.2.2 : ℚ)) 1 := by
  have hwq : (1 : ℚ) / ((img.shape.1 : ℚ) / 128) = 128 / (img.shape.1 : ℚ) :=
    one_div_div _ _
  have hhq : (1 : ℚ) / ((img.shape.2.1 : ℚ) / 128) = 128 / (img.shape.2.1 : ℚ) :=
    one_div_div _ _
  have hdq : (1 : ℚ) / ((img.shape.2.2 : ℚ) / 64) = 64 / (img.shape.2.2 : ℚ) :=
    one_div_div _ _
  have hcall : resize_volume rotI zoomI img =
      ndimage_zoom zoomI (ndimage_rotate rotI img 90)
        (128 / (img.shape.1 : ℚ), 128 / (img.shape.2.1 : ℚ),
          64 / (img.shape.2.2 : ℚ)) 1 := by
    simp only [resize_volume]
    push_cast
    rw [hwq, hhq, hdq]
  refine ⟨?_, hcall⟩
  rw [hcall]
  simp only [ndimage_zoom, ndimage_rotate]
  have e1 := zoom_dim_self 128 img.shape.1 hw
  have e2 := zoom_dim_self 128 img.shape.2.1 hh
  have e3 := zoom_dim_self 64 img.shape.2.2 hd
  push_cast at e1 e2 e3
  rw [e1, e2, e3]

theorem resize_volume_shape_witness :
    (resize_volume (fun _ _ => []) (fun _ _ _ => [])
      ⟨(100, 100, 50), []⟩).shape = (128, 128, 64) :=
  (resize_volume_shape (fun _ _ => []) (fun _ _ _ => []) ⟨(100, 100, 50), []⟩
    (by decide) (by decide) (by decide)).1

/-- Embedding of the positional split (train.py lines 306-309): the training
partition takes the first 70 items of each class, the validation partition
the remainder.  Generic in the element type, so the same definitions cover
the scan arrays (x_train/x_val) and the label arrays (y_train/y_val). -/
def x_train (abnormal_scans normal_scans : List α) : List α :=
  abnormal_scans.take 70 ++ normal_scans.take 70

/-- Validation half of the positional split (train.py lines 308-309). -/
def x_val (abnormal_scans normal_scans : List α) : List α :=
  abnormal_scans.drop 70 ++ normal_scans.drop 70

/-- C3: the positional split is a partition: the sizes of the two parts add
up to the total number of samples, and their concatenation is a permutation
of the full labeled set (so nothing is duplicated or lost; the two parts are
disjoint as a partition of positions). -/
theorem split_partition (α : Type) (ab no : List α) :
    (x_train ab no).length + (x_val ab no).length = ab.length + no.length ∧
    (x_train ab no ++ x_val ab no).Perm (ab ++ no) := by
  constructor
  · simp only [x_train, x_val, List.length_append, List.length_take,
      List.length_drop]
    omega
  · have h1 : x_train ab no ++ x_val ab no =
        ab.take 70 ++ ((no.take 70 ++ ab.drop 70) ++ no.drop 70) := by
      simp [x_train, x_val, List.append_assoc]
    have h2 : (no.take 70 ++ ab.drop 70).Perm (ab.drop 70 ++ no.take 70) :=
      List.perm_append_comm
    have h3 : (ab.take 70 ++ ((no.take 70 ++ ab.drop 70) ++ no.drop 70)).Perm
        (ab.take 70 ++ ((ab.drop 70 ++ no.take 70) ++ no.drop 70)) :=
      List.Perm.append_left _ (List.Perm.append_right _ h2)
    have h4 : ab.take 70 ++ ((ab.drop 70 ++ no.take 70) ++ no.drop 70) =
        ab ++ no := by
      simp only [List.append_assoc]
      rw [← List.append_assoc (ab.take 70), List.take_append_drop,
        List.take_append_drop]
    rw [h1, ← h4]
    exact h3

/-- The fixed set of augmentation angles (train.py line 135). -/
def angles : List ℤ := [-20, -10, -5, 5, 10, 20]

/-- random.choice(angles) (train.py line 137): the ambient random source is
modelled by the natural number pick; choice returns the element of the list
at position pick % length. -/
def random_choice (pick : Nat) (l : List ℤ) : ℤ := l.getD (pick % l.length) 0

/-- Embedding of the inner scipy_rotate of rotate (train.py lines 133-142):
choose an angle at random, rotate the first two axes with reshape=False,
then apply the masked assignments volume[volume < 0] = 0 and
volume[volume > 1] = 1. -/
def scipy_rotate (interp : Volume → ℤ → List ℚ) (pick : Nat) (volume : Volume) :
    Volume :=
  let angle := random_choice pick angles
  let volume2 := ndimage_rotate interp volume angle
  { shape := volume2.shape,
    data := (volume2.data.map fun x => if x < 0 then 0 else x).map
      fun x => if 1 < x then 1 else x }

/-- Embedding of rotate (train.py lines 129-145): tf.numpy_function applies
scipy_rotate to the volume; the tf.float32 cast is not modelled (arithmetic
is exact). -/
def rotate (interp : Volume → ℤ → List ℚ) (pick : Nat) (volume : Volume) :
    Volume :=
  scipy_rotate interp pick volume

/-- C4: the augmenter picks its angle from the fixed set
[-20, -10, -5, 5, 10, 20], keeps the volume's shape, and clamps every output
value into [0, 1] whatever values rotation interpolation produced. -/
theorem rotate_clamps_and_keeps_shape (interp : Volume → ℤ → List ℚ)
    (pick : Nat) (v : Volume) :
    (rotate interp pick v).shape = v.shape ∧
    (∀ x ∈ (rotate interp pick v).data, 0 ≤ x ∧ x ≤ 1) ∧
    random_choice pick angles ∈ angles ∧
    (rotate interp pick v).data =
      ((ndimage_rotate interp v (random_choice pick angles)).data.map
        fun x => if x < 0 then 0 else x).map (fun x => if 1 < x then 1 else x) := by
  refine ⟨rfl, ?_, ?_, rfl⟩
  · intro x hx
    simp only [rotate, scipy_rotate, List.mem_map] at hx
    obtain ⟨a, ⟨z, _, rfl⟩, rfl⟩ := hx
    constructor <;> split_ifs <;> linarith
  · have hlt : pick % angles.length < angles.length :=
      Nat.mod_lt _ (by simp [angles])
    have h6 : pick % angles.length = 0 ∨ pick % angles.length = 1 ∨
        pick % angles.length = 2 ∨ pick % angles.length = 3 ∨
        pick % angles.length = 4 ∨ pick % angles.length = 5 := by
      simp only [angles, List.length_cons, List.length_nil] at hlt ⊢
      omega
    rcases h6 with h | h | h | h | h | h <;>
      · rw [random_choice, h]
        decide

theorem rotate_clamps_and_keeps_shape_witness :
    (rotate (fun _ _ => [5, -3, 1/2]) 0 ⟨(1, 1, 1), [0]⟩).shape = (1, 1, 1) ∧
    (∀ x ∈ (rotate (fun _ _ => [5, -3, 1/2]) 0 ⟨(1, 1, 1), [0]⟩).data,
      0 ≤ x ∧ x ≤ 1) ∧
    random_choice 0 angles ∈ angles :=
  have h := rotate_clamps_and_keeps_shape (fun _ _ => [5, -3, 1/2]) 0
    ⟨(1, 1, 1), [0]⟩
  ⟨h.1, h.2.1, h.2.2.1⟩

/-- The fixed class names of the final report (train.py line 394). -/
def class_names : List String := ["normal", "abnormal"]

/-- Embedding of the inference step (train.py lines 389-392): with the best
checkpoint's parameters reloaded, the model is one forward pass mapping a
volume to the sigmoid probability of the abnormal class (label 1);
prediction is that probability on the single held-out volume x_val[0], and
scores = [1 - prediction[0], prediction[0]]. -/
def inference_scores (model : Volume → ℚ) (x_val0 : Volume) : List ℚ :=
  let prediction := model x_val0
  [1 - prediction, prediction]

/-- zip(scores, class_names) of the report loop (train.py line 395). -/
def inference_report (model : Volume → ℚ) (x_val0 : Volume) :
    List (ℚ × String) :=
  (inference_scores model x_val0).zip class_names

/-- C7: the reported scores are the pair 1 - p and p where p is the model's
abnormal probability on the held-out volume; paired with the class names,
"normal" receives 1 - p and "abnormal" receives p, and the two scores sum
to 1. -/
theorem inference_two_class_report (model : Volume → ℚ) (x_val0 : Volume) :
    (inference_scores model x_val0).sum = 1 ∧
    inference_report model x_val0 =
      [(1 - model x_val0, "normal"), (model x_val0, "abnormal")] := by
  constructor
  · simp [inference_scores]
  · rfl

/-- Python bool() applied to a command-line string, which is what
type=bool does in argparse (train.py line 254): every non-empty string is
truthy, only the empty string is falsy. -/
def pyBool (s : String) : Bool := !(s == "")

/-- The parsed --download flag: none models an invocation omitting the flag
(argparse then uses default=True); some s models passing the string s,
which argparse converts with bool. -/
def parsed_download : Option String → Bool
  | none => true
  | some s => pyBool s

/-- Lines 260-261: download_data() is called iff args.download is truthy. -/
def download_step_runs (arg : Option String) : Bool := parsed_download arg

/-- C10: any non-empty string value for --download parses to True and makes
the download step run, including the strings "False" and "0"; only the
empty string parses to False and skips the step; omitting the flag defaults
it to True. -/
theorem download_flag_semantics (s : String) (hs : s ≠ "") :
    parsed_download (some s) = true ∧
    download_step_runs (some s) = true ∧
    parsed_download (some "False") = true ∧
    parsed_download (some "0") = true ∧
    parsed_download (some "") = false ∧
    download_step_runs (some "") = false ∧
    parsed_download none = true := by
  have h : pyBool s = true := by
    simp [pyBool, hs]
  exact ⟨h, h, by decide, by decide, by decide, by decide, rfl⟩

theorem download_flag_semantics_witness :
    parsed_download (some "False") = true ∧
    download_step_runs (some "False") = true ∧
    parsed_download (some "") = false ∧
    parsed_download none = true := by
  have h := download_flag_semantics "False" (by decide)
  exact ⟨h.1, h.2.1, h.2.2.2.2.1, h.2.2.2.2.2.2⟩

/-- The ambient random source consumed by the random module: the state from
which random.choice draws.  Functions whose bodies make no random call
return it unchanged; this makes the use (or non-use) of randomness explicit
in every signature. -/
abbrev RandState := Nat

/-- Embedding of read_nifti_file (train.py lines 57-63): the filesystem is a
map from paths to the raw volumes stored there; loading reads the file's
fixed contents and makes no random call. -/
def read_nifti_file (fs : String → Volume) (filepath : String)
    (r : RandState) : Volume × RandState :=
  (fs filepath, r)

/-- normalize lifted to a whole volume (train.py line 106 applies it to the
loaded 3D array): elementwise on the flat data, shape untouched; no random
call. -/
def normalize_vol (volume : Volume) (r : RandState) : Volume × RandState :=
  ({ shape := volume.shape, data := (normalize volume.data).1 }, r)

/-- resize_volume in state-passing form: its body makes no random call. -/
def resize_volume_s (rotI : Volume → ℤ → List ℚ)
    (zoomI : Volume → ℚ × ℚ × ℚ → Nat → List ℚ) (img : Volume)
    (r : RandState) : Volume × RandState :=
  (resize_volume rotI zoomI img, r)

/-- Embedding of process_scan (train.py lines 101-109): read the scan, then
normalize, then resize, threading the ambient random state through each
call. -/
def process_scan (rotI : Volume → ℤ → List ℚ)
    (zoomI : Volume → ℚ × ℚ × ℚ → Nat → List ℚ) (fs : String → Volume)
    (path : String) (r : RandState) : Volume × RandState :=
  let vr1 := read_nifti_file fs path r
  let vr2 := normalize_vol vr1.1 vr1.2
  resize_volume_s rotI zoomI vr2.1 vr2.2

/-- C8: process_scan is deterministic: its output volume does not depend on
the ambient random state, it leaves that state untouched, and a second run
on the same file with no intervening state reproduces the first run's
output exactly. -/
theorem process_scan_deterministic (rotI : Volume → ℤ → List ℚ)
    (zoomI : Volume → ℚ × ℚ × ℚ → Nat → List ℚ) (fs : String → Volume)
    (path : String) (r1 r2 : RandState) :
    (process_scan rotI zoomI fs path r1).1 =
      (process_scan rotI zoomI fs path r2).1 ∧
    (process_scan rotI zoomI fs path r1).2 = r1 ∧
    (process_scan rotI zoomI fs path
        ((process_scan rotI zoomI fs path r1).2)).1 =
      (process_scan rotI zoomI fs path r1).1 :=
  ⟨rfl, rfl, rfl⟩

/-- A rank-4 tensor produced by tf.expand_dims(volume, axis=3): the original
shape plus a trailing channel axis of size 1, over the same entries. -/
structure Volume4 where
  shape : Nat × Nat × Nat
  channels : Nat
  data : List ℚ
deriving Repr, DecidableEq

/-- Embedding of tf.expand_dims(volume, axis=3) (train.py lines 152 and
158). -/
def expand_dims_axis3 (v : Volume) : Volume4 :=
  { shape := v.shape, channels := 1, data := v.data }

/-- Embedding of train_preprocessing (train.py lines 148-153): rotate
(augment), then add the channel dimension. -/
def train_preprocessing (interp : Volume → ℤ → List ℚ) (pick : Nat)
    (s : Volume × Nat) : Volume4 × Nat :=
  (expand_dims_axis3 (rotate interp pick s.1), s.2)

/-- Embedding of validation_preprocessing (train.py lines 156-159): only add
the channel dimension. -/
def validation_preprocessing (s : Volume × Nat) : Volume4 × Nat :=
  (expand_dims_axis3 s.1, s.2)

/-- Dataset.batch(batch_size): group a sequence into consecutive batches of
at most bs elements each. -/
def batchList (bs : Nat) : List α → List (List α)
  | [] => []
  | x :: xs => (x :: xs.take (bs - 1)) :: batchList bs (xs.drop (bs - 1))
termination_by l => l.length
decreasing_by simp [List.length_drop]; omega

theorem flatten_batchList (bs : Nat) (l : List α) :
    (batchList bs l).flatten = l := by
  induction l using batchList.induct bs with
  | case1 => simp [batchList]
  | case2 x xs ih => simp [batchList, ih]

theorem batchList_batch_len (bs : Nat) (l : List α) :
    ∀ b ∈ batchList bs l, 0 < b.length ∧ b.length ≤ max 1 bs := by
  induction l using batchList.induct bs with
  | case1 => simp [batchList]
  | case2 x xs ih =>
    intro b hb
    rw [batchList] at hb
    rcases List.mem_cons.mp hb with h | h
    · subst h
      simp only [List.length_cons, List.length_take]
      omega
    · exact ih b h

/-- Configuration and contents of a tf.data pipeline as assembled in
train.py: the shuffle buffer size, the batch size, the prefetch look-ahead,
and the resulting list of batches. -/
structure Pipeline (α : Type) where
  shuffleBuffer : Nat
  batchSize : Nat
  prefetchDepth : Nat
  batches : List (List α)

/-- The batch size (train.py line 325). -/
def batch_size : Nat := 2

/-- Embedding of train_dataset (train.py lines 327-332):
shuffle(len(x_train)) draws an arbitrary permutation of x_train (supplied
here as the argument shuffled), then map train_preprocessing with an
independent random pick per element, batch(batch_size), prefetch(2). -/
def train_dataset (interp : Volume → ℤ → List ℚ) (picks : Nat → Nat)
    (xt : List (Volume × Nat)) (shuffled : List (Volume × Nat)) :
    Pipeline (Volume4 × Nat) :=
  { shuffleBuffer := xt.length
    batchSize := batch_size
    prefetchDepth := 2
    batches := batchList batch_size
      (shuffled.enum.map fun p => train_preprocessing interp (picks p.1) p.2) }

/-- Embedding of validation_dataset (train.py lines 334-339):
shuffle(len(x_val)), map validation_preprocessing, batch(batch_size),
prefetch(2). -/
def validation_dataset (xv : List (Volume × Nat))
    (shuffledV : List (Volume × Nat)) : Pipeline (Volume4 × Nat) :=
  { shuffleBuffer := xv.length
    batchSize := batch_size
    prefetchDepth := 2
    batches := batchList batch_size (shuffledV.map validation_preprocessing) }

theorem snd_mem_of_mem_enum {l : List α} {p : Nat × α} (h : p ∈ l.enum) :
    p.2 ∈ l := by
  rw [List.mem_enum_iff_getElem?] at h
  exact List.getElem?_mem h

/-- C5: the training pipeline augments every sample (each element of its
batches is expand_dims of a rotated original training sample) while the
validation pipeline only adds the channel dimension (volumes pass through
with identical data and shape); both pipelines shuffle with a buffer equal
to the full partition size, batch into groups of at most 2 with all samples
kept, and prefetch 2 batches ahead. -/
theorem dataset_pipelines (interp : Volume → ℤ → List ℚ) (picks : Nat → Nat)
    (xt xv shuffledT shuffledV : List (Volume × Nat))
    (hT : shuffledT.Perm xt) (hV : shuffledV.Perm xv) :
    (train_dataset interp picks xt shuffledT).shuffleBuffer = xt.length ∧
    (train_dataset interp picks xt shuffledT).batchSize = 2 ∧
    (train_dataset interp picks xt shuffledT).prefetchDepth = 2 ∧
    (validation_dataset xv shuffledV).shuffleBuffer = xv.length ∧
    (validation_dataset xv shuffledV).batchSize = 2 ∧
    (validation_dataset xv shuffledV).prefetchDepth = 2 ∧
    (train_dataset interp picks xt shuffledT).batches.flatten =
      (shuffledT.enum.map fun p =>
        (expand_dims_axis3 (rotate interp (picks p.1) p.2.1), p.2.2)) ∧
    (validation_dataset xv shuffledV).batches.flatten =
      (shuffledV.map fun s => (expand_dims_axis3 s.1, s.2)) ∧
    (train_dataset interp picks xt shuffledT).batches.flatten.length =
      xt.length ∧
    (validation_dataset xv shuffledV).batches.flatten.length = xv.length ∧
    (∀ b ∈ (train_dataset interp picks xt shuffledT).batches,
      0 < b.length ∧ b.length ≤ 2) ∧
    (∀ b ∈ (validation_dataset xv shuffledV).batches,
      0 < b.length ∧ b.length ≤ 2) ∧
    (∀ y ∈ (train_dataset interp picks xt shuffledT).batches.flatten,
      ∃ s ∈ xt, ∃ pk, y = (expand_dims_axis3 (rotate interp pk s.1), s.2)) ∧
    (∀ y ∈ (validation_dataset xv shuffledV).batches.flatten,
      ∃ s ∈ xv, y = (expand_dims_axis3 s.1, s.2) ∧ y.1.data = s.1.data ∧
        y.1.shape = s.1.shape ∧ y.1.channels = 1) := by
  have hjt : (train_dataset interp picks xt shuffledT).batches.flatten =
      (shuffledT.enum.map fun p =>
        (expand_dims_axis3 (rotate interp (picks p.1) p.2.1), p.2.2)) := by
    simp only [train_dataset, flatten_batchList]
    rfl
  have hjv : (validation_dataset xv shuffledV).batches.flatten =
      (shuffledV.map fun s => (expand_dims_axis3 s.1, s.2)) := by
    simp only [validation_dataset, flatten_batchList]
    rfl
  refine ⟨rfl, rfl, rfl, rfl, rfl, rfl, hjt, hjv, ?_, ?_, ?_, ?_, ?_, ?_⟩
  · rw [hjt]
    simp [List.enum_length, hT.length_eq]
  · rw [hjv]
    simp [hV.length_eq]
  · intro b hb
    have := batchList_batch_len batch_size _ b hb
    simpa [batch_size] using this
  · intro b hb
    have := batchList_batch_len batch_size _ b hb
    simpa [batch_size] using this
  · intro y hy
    rw [hjt] at hy
    obtain ⟨p, hp, rfl⟩ := List.mem_map.mp hy
    exact ⟨p.2, hT.mem_iff.mp (snd_mem_of_mem_enum hp), picks p.1, rfl⟩
  · intro y hy
    rw [hjv] at hy
    obtain ⟨s, hs, rfl⟩ := List.mem_map.mp hy
    exact ⟨s, hV.mem_iff.mp hs, rfl, rfl, rfl, rfl⟩

theorem dataset_pipelines_witness :
    (train_dataset (fun _ _ => []) (fun _ => 0)
      [(⟨(1, 1, 1), [0]⟩, 1)] [(⟨(1, 1, 1), [0]⟩, 1)]).batchSize = 2 ∧
    (train_dataset (fun _ _ => []) (fun _ => 0)
      [(⟨(1, 1, 1), [0]⟩, 1)] [(⟨(1, 1, 1), [0]⟩, 1)]).prefetchDepth = 2 ∧
    (∀ y ∈ (train_dataset (fun _ _ => []) (fun _ => 0)
        [(⟨(1, 1, 1), [0]⟩, 1)] [(⟨(1, 1, 1), [0]⟩, 1)]).batches.flatten,
      ∃ s ∈ [((⟨(1, 1, 1), [0]⟩ : Volume), 1)], ∃ pk,
        y = (expand_dims_axis3 (rotate (fun _ _ => []) pk s.1), s.2)) := by
  have h := dataset_pipelines (fun _ _ => []) (fun _ => 0)
    [(⟨(1, 1, 1), [0]⟩, 1)] [] [(⟨(1, 1, 1), [0]⟩, 1)] []
    (List.Perm.refl _) (List.Perm.refl _)
  exact ⟨h.2.1, h.2.2.1, h.2.2.2.2.2.2.2.2.2.2.2.2.1⟩

/-- The early-stopping patience (train.py line 363). -/
def patience : Nat := 15

/-- State kept by keras.callbacks.EarlyStopping(monitor="val_acc",
patience=15): the best validation accuracy seen so far (none stands for the
callback's -infinity initial value), the count of consecutive epochs
without improvement, and the stop_training flag. -/
structure ESState where
  best : Option ℚ
  wait : Nat
  stop : Bool
deriving Repr, DecidableEq

/-- Callback state at the start of training. -/
def esInit : ESState := { best := none, wait := 0, stop := false }

/-- Does the current monitored value improve on the best seen so far?
Monitoring val_acc puts the callback in max mode with min_delta 0:
improvement is a strict increase, and anything improves on the initial
-infinity. -/
def improvesOn (current : ℚ) : Option ℚ → Bool
  | none => true
  | some b => decide (b < current)

/-- One epoch-end step of the EarlyStopping callback: on improvement record
the new best and reset the wait counter; otherwise increment the counter
and request a stop once it reaches the patience. -/
def esStep (s : ESState) (current : ℚ) : ESState :=
  if improvesOn current s.best then
    { best := some current, wait := 0, stop := s.stop }
  else
    { best := s.best, wait := s.wait + 1,
      stop := s.stop || decide (patience ≤ s.wait + 1) }

/-- Callback state after the first k epochs, where acc e is the validation
accuracy recorded at the end of epoch e (0-based). -/
def esAfter (acc : Nat → ℚ) : Nat → ESState
  | 0 => esInit
  | k + 1 => esStep (esAfter acc k) (acc k)

/-- Embedding of the model.fit epoch loop (train.py lines 368-375): with n
epochs remaining, run epoch e in callback state s, breaking out as soon as
the EarlyStopping callback sets stop_training; returns how many epochs were
executed. -/
def fitLoop (acc : Nat → ℚ) : Nat → Nat → ESState → Nat
  | 0, _, _ => 0
  | n + 1, e, s =>
    if (esStep s (acc e)).stop then 1
    else 1 + fitLoop acc n (e + 1) (esStep s (acc e))

/-- Number of epochs executed by model.fit(epochs = maxEpochs) with the
EarlyStopping callback attached. -/
def epochsRun (maxEpochs : Nat) (acc : Nat → ℚ) : Nat :=
  fitLoop acc maxEpochs 0 esInit

/-- Epoch j strictly improves on every earlier validation accuracy, i.e. on
the monitored running maximum. -/
def improvesAt (acc : Nat → ℚ) (j : Nat) : Prop := ∀ i < j, acc i < acc j

theorem improvesOn_esAfter (acc : Nat → ℚ) :
    ∀ k c, improvesOn c ((esAfter acc k).best) = true ↔ ∀ i < k, acc i < c := by
  intro k
  induction k with
  | zero =>
    intro c
    simp [esAfter, esInit, improvesOn]
  | succ k ih =>
    intro c
    by_cases h : improvesOn (acc k) ((esAfter acc k).best) = true
    · have hk : ∀ i < k, acc i < acc k := (ih (acc k)).mp h
      have hbest : (esAfter acc (k + 1)).best = some (acc k) := by
        simp [esAfter, esStep, h]
      rw [hbest]
      simp only [improvesOn, decide_eq_true_eq]
      constructor
      · intro hc i hi
        rcases Nat.lt_succ_iff_lt_or_eq.mp hi with hik | hik
        · exact lt_trans (hk i hik) hc
        · subst hik; exact hc
      · intro hall
        exact hall k (Nat.lt_succ_self k)
    · have hex : ∃ i, i < k ∧ acc k ≤ acc i := by
        have hn : ¬ ∀ i < k, acc i < acc k := fun hfa => h ((ih (acc k)).mpr hfa)
        push_neg at hn
        obtain ⟨i, hi, hle⟩ := hn
        exact ⟨i, hi, hle⟩
      have hbest : (esAfter acc (k + 1)).best = (esAfter acc k).best := by
        simp only [esAfter, esStep]
        rw [if_neg h]
      rw [hbest, ih c]
      constructor
      · intro hall i hi
        rcases Nat.lt_succ_iff_lt_or_eq.mp hi with hik | hik
        · exact hall i hik
        · subst hik
          obtain ⟨i0, hi0, hle⟩ := hex
          exact lt_of_le_of_lt hle (hall i0 hi0)
      · intro hall i hi
        exact hall i (Nat.lt_trans hi (Nat.lt_succ_self k))

theorem esAfter_wait_le (acc : Nat → ℚ) : ∀ k, (esAfter acc k).wait ≤ k := by
  intro k
  induction k with
  | zero => simp [esAfter, esInit]
  | succ k ih =>
    by_cases h : improvesOn (acc k) ((esAfter acc k).best) = true
    · have : (esAfter acc (k + 1)).wait = 0 := by
        simp [esAfter, esStep, h]
      omega
    · have : (esAfter acc (k + 1)).wait = (esAfter acc k).wait + 1 := by
        simp only [esAfter, esStep]
        rw [if_neg h]
      omega

theorem esAfter_wait_trailing (acc : Nat → ℚ) :
    ∀ k j, k - (esAfter acc k).wait ≤ j → j < k → ¬ improvesAt acc j := by
  intro k
  induction k with
  | zero => omega
  | succ k ih =>
    intro j hjl hjr
    by_cases h : improvesOn (acc k) ((esAfter acc k).best) = true
    · have hw : (esAfter acc (k + 1)).wait = 0 := by
        simp [esAfter, esStep, h]
      omega
    · have hw : (esAfter acc (k + 1)).wait = (esAfter acc k).wait + 1 := by
        simp only [esAfter, esStep]
        rw [if_neg h]
      rcases Nat.lt_succ_iff_lt_or_eq.mp hjr with hjk | hjk
      · exact ih j (by omega) hjk
      · subst hjk
        intro himp
        exact h ((improvesOn_esAfter acc j (acc j)).mpr himp)

theorem esAfter_stop_transition (acc : Nat → ℚ) (k : Nat)
    (h0 : (esAfter acc k).stop = false) (h1 : (esAfter acc (k + 1)).stop = true) :
    patience ≤ (esAfter acc (k + 1)).wait := by
  by_cases h : improvesOn (acc k) ((esAfter acc k).best) = true
  · have : (esAfter acc (k + 1)).stop = (esAfter acc k).stop := by
      simp [esAfter, esStep, h]
    rw [this, h0] at h1
    exact absurd h1 (by decide)
  · have hs : (esAfter acc (k + 1)).stop =
        ((esAfter acc k).stop || decide (patience ≤ (esAfter acc k).wait + 1)) := by
      simp only [esAfter, esStep]
      rw [if_neg h]
    have hw : (esAfter acc (k + 1)).wait = (esAfter acc k).wait + 1 := by
      simp only [esAfter, esStep]
      rw [if_neg h]
    rw [hs, h0, Bool.false_or, decide_eq_true_eq] at h1
    omega

theorem fitLoop_spec (acc : Nat → ℚ) :
    ∀ n e, (esAfter acc e).stop = false →
      fitLoop acc n e (esAfter acc e) ≤ n ∧
      (fitLoop acc n e (esAfter acc e) < n →
        1 ≤ fitLoop acc n e (esAfter acc e) ∧
        (esAfter acc (e + fitLoop acc n e (esAfter acc e))).stop = true ∧
        (esAfter acc (e + fitLoop acc n e (esAfter acc e) - 1)).stop = false) := by
  intro n
  induction n with
  | zero =>
    intro e _
    simp [fitLoop]
  | succ n ih =>
    intro e he
    have hstep : esStep (esAfter acc e) (acc e) = esAfter acc (e + 1) := rfl
    by_cases h2 : (esAfter acc (e + 1)).stop = true
    · have hval : fitLoop acc (n + 1) e (esAfter acc e) = 1 := by
        simp only [fitLoop, hstep]
        rw [if_pos h2]
      rw [hval]
      refine ⟨by omega, fun _ => ⟨le_refl 1, ?_, ?_⟩⟩
      · simpa using h2
      · simpa using he
    · have h2f : (esAfter acc (e + 1)).stop = false := by
        simpa using h2
      have hval : fitLoop acc (n + 1) e (esAfter acc e) =
          1 + fitLoop acc n (e + 1) (esAfter acc (e + 1)) := by
        simp only [fitLoop, hstep]
        rw [if_neg h2]
      obtain ⟨ihle, ihlt⟩ := ih (e + 1) h2f
      rw [hval]
      refine ⟨by omega, fun hlt => ?_⟩
      have hr : fitLoop acc n (e + 1) (esAfter acc (e + 1)) < n := by omega
      obtain ⟨hge1, hstop, hprev⟩ := ihlt hr
      refine ⟨by omega, ?_, ?_⟩
      · have : e + (1 + fitLoop acc n (e + 1) (esAfter acc (e + 1))) =
            e + 1 + fitLoop acc n (e + 1) (esAfter acc (e + 1)) := by omega
        rw [this]
        exact hstop
      · have : e + (1 + fitLoop acc n (e + 1) (esAfter acc (e + 1))) - 1 =
            e + 1 + fitLoop acc n (e + 1) (esAfter acc (e + 1)) - 1 := by omega
        rw [this]
        exact hprev

/-- C6: the training loop always terminates: it executes at most maxEpochs
epochs, and whenever it stops earlier the early-stopping rule fired: at
least patience (= 15) epochs ran, and none of the final patience epochs of
the run improved on the best validation accuracy seen before it. -/
theorem training_loop_terminates (maxEpochs : Nat) (acc : Nat → ℚ) :
    epochsRun maxEpochs acc ≤ maxEpochs ∧
    (epochsRun maxEpochs acc < maxEpochs →
      patience ≤ epochsRun maxEpochs acc ∧
      ∀ j, epochsRun maxEpochs acc - patience ≤ j →
        j < epochsRun maxEpochs acc → ¬ improvesAt acc j) := by
  have h0 : (esAfter acc 0).stop = false := rfl
  have hmain := fitLoop_spec acc maxEpochs 0 h0
  have hrun : epochsRun maxEpochs acc = fitLoop acc maxEpochs 0 (esAfter acc 0) :=
    rfl
  rw [hrun]
  refine ⟨hmain.1, fun hlt => ?_⟩
  obtain ⟨hge1, hstop, hprev⟩ := hmain.2 hlt
  set r := fitLoop acc maxEpochs 0 (esAfter acc 0) with hr
  simp only [Nat.zero_add] at hstop hprev
  have hstep : (esAfter acc r).stop = true := hstop
  have hpw : patience ≤ (esAfter acc r).wait := by
    have hr1 : r - 1 + 1 = r := by omega
    have ht := esAfter_stop_transition acc (r - 1) hprev
      (by rw [hr1]; exact hstep)
    rw [hr1] at ht
    exact ht
  have hwle : (esAfter acc r).wait ≤ r := esAfter_wait_le acc r
  refine ⟨by omega, fun j hj1 hj2 => ?_⟩
  exact esAfter_wait_trailing acc r j (by omega) hj2

theorem training_loop_terminates_witness :
    epochsRun 100 (fun _ => (0 : ℚ)) ≤ 100 ∧
    patience ≤ epochsRun 100 (fun _ => (0 : ℚ)) ∧
    ¬ improvesAt (fun _ => (0 : ℚ)) 1 := by
  have h := training_loop_terminates 100 (fun _ => (0 : ℚ))
  have hlt : epochsRun 100 (fun _ => (0 : ℚ)) < 100 := by decide
  have h16 : epochsRun 100 (fun _ => (0 : ℚ)) = 16 := by decide
  exact ⟨h.1, (h.2 hlt).1,
    (h.2 hlt).2 1 (by rw [h16]; decide) (by rw [h16]; decide)⟩

end TrainPy
